import Mathlib

/-!
Verification of `scripts/export_memos.py` (Memos data export tool).

The script is a sequential orchestrator: authenticate, paginate over the memo
list endpoint, fetch per-memo details and attachment metadata, download
attachment binaries to disk, and serialize one JSON report.  We embed the
script shallowly:

* JSON values handled by the script become the inductive `JVal`; Python
  truthiness, `dict.get` (raising `AttributeError` on non-dicts) and `for`
  iteration (raising `TypeError` on non-iterables) become `truthy`, `jGetD`
  and `jIter`.
* The network is an `Env`: the responses the server would give to each
  request the script can make.  An `Except Exn` value models an
  `api_call`/download outcome (any transport, HTTP status or JSON decode
  failure is an `.error`).
* The attachments directory becomes an association list `FS` from file name
  to byte contents; `Path.write_bytes` becomes `fsWrite` and the
  duplicate-filename loop of `download_attachment` becomes `resolveName`.
* Each Python function of the `MemosExporter` class is translated to a Lean
  function of the same name; the driver `export_memos` becomes
  `export_memos_run`, returning the exit code, the report written at
  FINALIZE (if any) and the final attachments directory.
-/

/-- Exceptions that the modelled script can raise or catch. -/
inductive Exn where
  /-- an `api_call` failure: timeout, connection error, non-2xx status or
  invalid JSON body (the script re-wraps all of these in one `Exception`). -/
  | http (msg : String)
  /-- Python `AttributeError`: `.get` called on a non-dict value. -/
  | attrError
  /-- Python `TypeError`: iterating a non-iterable value. -/
  | typeError
  /-- model artifact: the supply of listing responses in the environment is
  exhausted (the real server would answer further requests). -/
  | outOfPages
deriving DecidableEq

/-- JSON values as the Python script sees them after `response.json()`. -/
inductive JVal where
  | null
  | bool (b : Bool)
  | num (n : Int)
  | str (s : String)
  | arr (elems : List JVal)
  | obj (fields : List (String × JVal))

/-- Python truthiness (`bool(v)`) of a JSON value. -/
def truthy : JVal → Bool
  | .null => false
  | .bool b => b
  | .num n => n != 0
  | .str s => s != ""
  | .arr l => !l.isEmpty
  | .obj l => !l.isEmpty

/-- Test for a JSON object (a Python dict). -/
def JVal.isObj : JVal → Bool
  | .obj _ => true
  | _ => false

/-- Python `v.get(k, d)`: raises `AttributeError` unless `v` is a dict. -/
def jGetD (v : JVal) (k : String) (d : JVal) : Except Exn JVal :=
  match v with
  | .obj fields => .ok ((fields.lookup k).getD d)
  | _ => .error .attrError

/-- Python iteration over a JSON value: lists yield their elements, strings
their characters, dicts their keys; other values raise `TypeError`. -/
def jIter : JVal → Except Exn (List JVal)
  | .arr l => .ok l
  | .str s => .ok (s.data.map fun c => .str ⟨[c]⟩)
  | .obj l => .ok (l.map fun p => .str p.1)
  | _ => .error .typeError

/-- Decimal digit characters of a natural number, most significant first,
computed with explicit fuel (any fuel `≥ n` is enough). -/
def natStrGo : Nat → Nat → List Char
  | 0, _ => []
  | fuel + 1, n => if n = 0 then [] else natStrGo fuel (n / 10) ++ [Nat.digitChar (n % 10)]

/-- Python `str()` of a non-negative integer (decimal rendering). -/
def natStr (n : Nat) : String := if n = 0 then "0" else ⟨natStrGo n n⟩

/-- Python `str()` of an integer. -/
def intStr (n : Int) : String := if n < 0 then "-" ++ natStr n.natAbs else natStr n.toNat

/-- Best-effort rendering of a JSON value into an error-message string,
standing in for Python string interpolation of the value. -/
def pyStr : JVal → String
  | .null => "None"
  | .bool true => "True"
  | .bool false => "False"
  | .num n => intStr n
  | .str s => s
  | .arr _ => "<list>"
  | .obj _ => "<dict>"

/-- Message text of an exception, standing in for Python `str(e)`. -/
def exnMsg : Exn → String
  | .http m => m
  | .attrError => "AttributeError"
  | .typeError => "TypeError"
  | .outOfPages => "listing response supply exhausted"

/-- Numeric value of a digit-character list, most significant first; inverse
of `natStrGo` on its image. -/
def valOfChars (l : List Char) : Nat := l.foldl (fun acc c => acc * 10 + (c.toNat - 48)) 0

/-- Index of the last `.` in a character list, if any. -/
def findLastDot : List Char → Option Nat
  | [] => none
  | c :: rest =>
    match findLastDot rest with
    | some i => some (i + 1)
    | none => if c = '.' then some 0 else none

/-- Python `pathlib` split of a file name into `(stem, suffix)`: the suffix is
nonempty exactly when the last `.` sits at an index `i` with
`0 < i < len - 1`. -/
def splitExt (s : String) : String × String :=
  match findLastDot s.data with
  | some i => if 0 < i ∧ i < s.data.length - 1 then (⟨s.data.take i⟩, ⟨s.data.drop i⟩) else (s, "")
  | none => (s, "")

/-- Candidate file name `f"{stem}_{counter}{suffix}"` tried by the
duplicate-filename loop. -/
def cand (stem suffix : String) (k : Nat) : String := stem ++ "_" ++ natStr k ++ suffix

/-- Fueled version of the `while file_path.exists()` loop of
`download_attachment`: starting from counter `k`, return the first candidate
`f"{stem}_{counter}{suffix}"` that is not among the existing names.  With fuel
`ns.length` this coincides with the unbounded Python loop (see
`resolveLoop_not_mem`). -/
def resolveLoop (ns : List String) (stem suffix : String) : Nat → Nat → String
  | 0, k => cand stem suffix k
  | fuel + 1, k => if cand stem suffix k ∈ ns then resolveLoop ns stem suffix fuel (k + 1) else cand stem suffix k

/-- Name finally chosen by `download_attachment` for a file called `filename`
given the set `ns` of names already present in the attachments directory. -/
def resolveName (ns : List String) (filename : String) : String :=
  if filename ∈ ns then
    let p := splitExt filename
    resolveLoop ns p.1 p.2 ns.length 1
  else filename

/-- Contents of the attachments directory: file name to byte contents, in
creation order. -/
abbrev FS := List (String × List Nat)

/-- Names of the files currently in the attachments directory. -/
def fsNames (fs : FS) : List String := fs.map Prod.fst

/-- Contents of the file called `n`, if present (`Path.read_bytes` view). -/
def fsLookup (fs : FS) (n : String) : Option (List Nat) := List.lookup n fs

/-- Python `Path.write_bytes`: overwrite an existing file of the same name,
otherwise create a new one. -/
def fsWrite (fs : FS) (n : String) (c : List Nat) : FS :=
  if n ∈ fsNames fs then fs.map (fun p => if p.1 = n then (n, c) else p) else fs ++ [(n, c)]

/-- User snapshot extracted by `get_current_user` (fields default to `None`
when missing). -/
structure UserRecord where
  name : JVal
  username : JVal
  email : JVal
  display_name : JVal
  role : JVal

/-- One entry of a memo's `attachments` list in the report (built only for a
successfully downloaded attachment). -/
structure AttachmentRef where
  id : JVal
  filename : JVal
  file_path : String
  type_ : JVal
  size : JVal
  created_at : JVal

/-- One entry of the report's `memos` array (the `memo_export` dict). -/
structure MemoRecord where
  name : JVal
  content : JVal
  created_at : JVal
  updated_at : JVal
  display_time : JVal
  visibility : JVal
  pinned : JVal
  tags : JVal
  snippet : JVal
  state : JVal
  attachments : List AttachmentRef
  location : Option JVal
  parent : Option JVal
  relations : Option JVal
  reactions : Option JVal

/-- The report's `summary` object. -/
structure Summary where
  total_memos : Nat
  total_attachments : Nat
  export_errors : List String

/-- The `export_data` dictionary serialized at FINALIZE (`export_time` is
wall-clock time and is not modelled; `host` is fixed per run). -/
structure ExportReport where
  user : Option UserRecord
  memos : List MemoRecord
  summary : Summary

/-- Server-side behavior: the response each request of the script would
receive.  `pages` lists the successive answers to the paginated
`/api/v1/memos` requests; `detail`, `attach` and `download` are keyed by the
values interpolated into the request URL. -/
structure Env where
  userResp : Except Exn JVal
  pages : List (Except Exn JVal)
  detail : JVal → Except Exn JVal
  attach : JVal → Except Exn JVal
  download : JVal → JVal → Except Exn (List Nat)

/-- Translation of `MemosExporter.get_current_user`: any failure (including a
non-dict response or user object, which make `.get` raise) propagates and is
fatal to the run. -/
def get_current_user (env : Env) : Except Exn UserRecord := do
  let resp ← env.userResp
  let user ← jGetD resp "user" (.obj [])
  let name ← jGetD user "name" .null
  let username ← jGetD user "username" .null
  let email ← jGetD user "email" .null
  let display ← jGetD user "display_name" .null
  let role ← jGetD user "role" .null
  pure ⟨name, username, email, display, role⟩

/-- Translation of the `while True` pagination loop of
`MemosExporter.list_memos`, consuming the supply of responses in order: each
page's `memos` list (any iterable) is appended to the accumulator and the
loop ends when `nextPageToken` is missing or falsy.  Any page failure is
re-raised and aborts the listing. -/
def list_memos_go : List (Except Exn JVal) → List JVal → Except Exn (List JVal)
  | [], _ => .error .outOfPages
  | r :: rest, acc =>
    match r with
    | .error e => .error e
    | .ok resp =>
      match jGetD resp "memos" (.arr []) with
      | .error e => .error e
      | .ok memosVal =>
        match jIter memosVal with
        | .error e => .error e
        | .ok memos =>
          match jGetD resp "nextPageToken" (.str "") with
          | .error e => .error e
          | .ok tok =>
            if truthy tok then list_memos_go rest (acc ++ memos) else .ok (acc ++ memos)

/-- Translation of `MemosExporter.list_memos`. -/
def list_memos (pages : List (Except Exn JVal)) : Except Exn (List JVal) :=
  list_memos_go pages []

/-- Translation of `MemosExporter.get_memo_details`: result of
`response.get("memo", response)`, with every failure caught and turned into
an empty dict. -/
def get_memo_details (env : Env) (memo_name : JVal) : JVal :=
  match env.detail memo_name with
  | .error _ => .obj []
  | .ok resp =>
    match jGetD resp "memo" resp with
    | .error _ => .obj []
    | .ok v => v

/-- Translation of `MemosExporter.get_memo_attachments`: result of
`response.get("attachments", [])`, with every failure caught and turned into
an empty list. -/
def get_memo_attachments (env : Env) (memo_name : JVal) : JVal :=
  match env.attach memo_name with
  | .error _ => .arr []
  | .ok resp =>
    match jGetD resp "attachments" (.arr []) with
    | .error _ => .arr []
    | .ok v => v

/-- Translation of `MemosExporter.download_attachment`.  Returns the relative
path recorded in the report (or `none`), the updated attachments directory,
and whether an HTTP GET was issued.  Every exception inside the Python
function is caught and yields `none`; `fsWrite` is reached only through
`resolveName`, whose result is a fresh name. -/
def download_attachment (env : Env) (fs : FS) (att : JVal) : Option String × FS × Bool :=
  match jGetD att "name" (.str "") with
  | .error _ => (none, fs, false)
  | .ok an =>
    match jGetD att "filename" (.str "") with
    | .error _ => (none, fs, false)
    | .ok fn =>
      if ¬ truthy an ∨ ¬ truthy fn then (none, fs, false)
      else
        match env.download an fn with
        | .error _ => (none, fs, true)
        | .ok content =>
          match fn with
          | .str f =>
            let n := resolveName (fsNames fs) f
            (some ("attachments/" ++ n), fsWrite fs n content, true)
          | _ => (none, fs, true)

/-- The `attachment_refs.append({...})` dict built in `export_memos` for a
successfully downloaded attachment (raises only if `att` is not a dict, which
cannot happen after a successful download). -/
def mkAttachmentRef (att : JVal) (path : String) : Except Exn AttachmentRef := do
  let id_ ← jGetD att "name" (.str "")
  let fn ← jGetD att "filename" (.str "")
  let ty ← jGetD att "type" (.str "")
  let sz ← jGetD att "size" (.num 0)
  let ct ← jGetD att "createTime" (.str "")
  pure ⟨id_, fn, path, ty, sz, ct⟩

/-- Optional field of `memo_export`: included when the key is present with a
truthy value (`if "location" in memo_detail and memo_detail["location"]`). -/
def optField (d : JVal) (k : String) : Option JVal :=
  match d with
  | .obj fields =>
    match fields.lookup k with
    | some v => if truthy v then some v else none
    | none => none
  | _ => none

/-- The `memo_export` dict built in `export_memos` from the (possibly
fallback) memo detail value; raises `AttributeError` when that value is not a
dict. -/
def mkMemoExport (d : JVal) (refs : List AttachmentRef) : Except Exn MemoRecord := do
  let name ← jGetD d "name" (.str "")
  let content ← jGetD d "content" (.str "")
  let created ← jGetD d "createTime" (.str "")
  let updated ← jGetD d "updateTime" (.str "")
  let displayT ← jGetD d "displayTime" (.str "")
  let vis ← jGetD d "visibility" (.str "PRIVATE")
  let pinned ← jGetD d "pinned" (.bool false)
  let tags ← jGetD d "tags" (.arr [])
  let snippet ← jGetD d "snippet" (.str "")
  let state ← jGetD d "state" (.str "NORMAL")
  pure ⟨name, content, created, updated, displayT, vis, pinned, tags, snippet, state, refs,
        optField d "location", optField d "parent", optField d "relations", optField d "reactions"⟩

/-- String appended to `summary.export_errors` for a memo whose processing
raised: `f"Memo {memo.get('name')}: {str(e)}"`. -/
def errMsg (memo : JVal) (e : Exn) : String :=
  "Memo " ++ pyStr (match memo with
    | .obj fields => (fields.lookup "name").getD .null
    | _ => .null) ++ ": " ++ exnMsg e

/-- Result of the per-memo `try` block: `skipped` for the `continue` on a
falsy name, `appended` when the memo record is appended, `errored` when an
exception was caught and recorded. -/
inductive MemoOutcome where
  | skipped
  | appended (rec : MemoRecord)
  | errored (msg : String)

/-- Translation of the `for attachment in attachments` loop of
`export_memos`: threads the attachments directory and the
`total_attachments` counter (both of which keep their updates even if a later
step of the same memo raises), accumulating the refs of successful
downloads. -/
def attach_loop (env : Env) : List JVal → FS → Nat → List AttachmentRef →
    FS × Nat × Except Exn (List AttachmentRef)
  | [], fs, ta, refs => (fs, ta, .ok refs)
  | att :: rest, fs, ta, refs =>
    match download_attachment env fs att with
    | (none, fs', _) => attach_loop env rest fs' ta refs
    | (some path, fs', _) =>
      match mkAttachmentRef att path with
      | .error e => (fs', ta, .error e)
      | .ok ref => attach_loop env rest fs' (ta + 1) (refs ++ [ref])

/-- Translation of the body of the per-memo `try` block of `export_memos`
(the code after the header print): skip on a falsy name, fetch details with
summary fallback, fetch and download attachments, build the memo record.
Returns the updated directory and counter together with the outcome. -/
def process_memo (env : Env) (fs : FS) (ta : Nat) (memo : JVal) : FS × Nat × MemoOutcome :=
  match jGetD memo "name" (.str "") with
  | .error e => (fs, ta, .errored (errMsg memo e))
  | .ok mname =>
    if ¬ truthy mname then (fs, ta, .skipped)
    else
      let d0 := get_memo_details env mname
      let d := if truthy d0 then d0 else memo
      match jIter (get_memo_attachments env mname) with
      | .error e => (fs, ta, .errored (errMsg memo e))
      | .ok atts =>
        match attach_loop env atts fs ta [] with
        | (fs', ta', .error e) => (fs', ta', .errored (errMsg memo e))
        | (fs', ta', .ok refs) =>
          match mkMemoExport d refs with
          | .error e => (fs', ta', .errored (errMsg memo e))
          | .ok rec => (fs', ta', .appended rec)

/-- Translation of the `for idx, memo in enumerate(memos, 1)` loop of
`export_memos`.  The header print interpolates `memo.get('name')` outside
the `try` block, so a non-dict memo summary raises an uncaught
`AttributeError` (the `.error` case), which aborts the loop while keeping
the directory state. -/
def memo_loop (env : Env) : List JVal → FS → Nat → List String → List MemoRecord →
    FS × Except Exn (Nat × List String × List MemoRecord)
  | [], fs, ta, errs, recs => (fs, .ok (ta, errs, recs))
  | memo :: rest, fs, ta, errs, recs =>
    match jGetD memo "name" .null with
    | .error e => (fs, .error e)
    | .ok _ =>
      match process_memo env fs ta memo with
      | (fs', ta', .skipped) => memo_loop env rest fs' ta' errs recs
      | (fs', ta', .appended rec) => memo_loop env rest fs' ta' errs (recs ++ [rec])
      | (fs', ta', .errored msg) => memo_loop env rest fs' ta' (errs ++ [msg]) recs

/-- Final state of a run: process exit code, the report written to
`memos_export.json` at FINALIZE (`none` when the run aborted first), and the
final attachments directory. -/
structure RunResult where
  exitCode : Nat
  report : Option ExportReport
  fs : FS

/-- Translation of the driver `MemosExporter.export_memos`: directory setup
(idempotent, not modelled further), fatal user lookup, fatal listing,
`summary.total_memos` set to the length of the listing, the per-memo loop,
and the final save (modelled as succeeding).  Any uncaught exception hits the
outer handler, which calls `sys.exit(1)` before the report is written. -/
def export_memos_run (env : Env) (fs0 : FS) : RunResult :=
  match get_current_user env with
  | .error _ => ⟨1, none, fs0⟩
  | .ok user =>
    match list_memos env.pages with
    | .error _ => ⟨1, none, fs0⟩
    | .ok memos =>
      match memo_loop env memos fs0 0 [] [] with
      | (fs1, .error _) => ⟨1, none, fs1⟩
      | (fs1, .ok (ta, errs, recs)) =>
        ⟨0, some ⟨some user, recs, ⟨memos.length, ta, errs⟩⟩, fs1⟩

/-- Pure replay of the per-memo loop, recording each memo's outcome while
threading the directory and attachment counter; used to state what
`memo_loop` computes. -/
def loop_sim (env : Env) : List JVal → FS → Nat → FS × Nat × List MemoOutcome
  | [], fs, ta => (fs, ta, [])
  | m :: rest, fs, ta =>
    match process_memo env fs ta m with
    | (fs', ta', out) =>
      match loop_sim env rest fs' ta' with
      | (fs'', ta'', outs) => (fs'', ta'', out :: outs)

/-- Error strings contributed to `summary.export_errors` by a list of
per-memo outcomes. -/
def outErrs (outs : List MemoOutcome) : List String :=
  outs.filterMap fun o => match o with | .errored m => some m | _ => none

/-- Memo records contributed to the `memos` array by a list of per-memo
outcomes. -/
def outRecs (outs : List MemoOutcome) : List MemoRecord :=
  outs.filterMap fun o => match o with | .appended r => some r | _ => none

/-- Outcomes that were skips (memos with a falsy `name`, hit by
`continue`). -/
def outSkips (outs : List MemoOutcome) : Nat :=
  (outs.filterMap fun o => match o with | .skipped => some () | _ => none).length

/-- Successful session-lookup response used by the concrete environments. -/
def okUserResp : Except Exn JVal := .ok (.obj [("user", .obj [("username", .str "u")])])

/-- Single listing page carrying the given memo summaries and an empty
continuation token. -/
def onePage (memos : List JVal) : Except Exn JVal :=
  .ok (.obj [("memos", .arr memos), ("nextPageToken", .str "")])

/-- Failing responder for endpoints a scenario does not exercise. -/
def noResp : JVal → Except Exn JVal := fun _ => .error (.http "HTTP 404")

/-- Failing download responder for scenarios without downloads. -/
def noDownload : JVal → JVal → Except Exn (List Nat) := fun _ _ => .error (.http "HTTP 404")

/-- Environment whose single listed memo summary has no `name` field: the
memo is skipped by `continue` but still counted in `total_memos`. -/
def envC1 : Env := ⟨okUserResp, [onePage [.obj []]], noResp, noResp, noDownload⟩

/-- Attachment metadata used by the C2 scenario: name, filename and a
`size` of 3, matching the 3-byte download. -/
def attC2 : JVal :=
  .obj [("name", .str "attachments/9"), ("filename", .str "a.png"), ("size", .num 3)]

/-- Environment for the C2 counterexample: one memo with a well-formed
summary, one attachment that downloads successfully, and a detail response
whose `memo` field is a (truthy) number, so building the memo record raises
`AttributeError` after the attachment counter was already incremented. -/
def envC2 : Env :=
  ⟨okUserResp,
   [onePage [.obj [("name", .str "memos/1")]]],
   fun _ => .ok (.obj [("memo", .num 5)]),
   fun _ => .ok (.obj [("attachments", .arr [attC2])]),
   fun _ _ => .ok [1, 2, 3]⟩

/-- Two attachment metadata objects sharing the filename `photo.png`. -/
def attC6a : JVal := .obj [("name", .str "attachments/1"), ("filename", .str "photo.png")]

/-- Second attachment with the same filename as `attC6a`. -/
def attC6b : JVal := .obj [("name", .str "attachments/2"), ("filename", .str "photo.png")]

/-- Environment for the filename-collision scenario: one memo with two
attachments both called `photo.png`, downloading different bytes. -/
def envC6 : Env :=
  ⟨okUserResp,
   [onePage [.obj [("name", .str "memos/1")]]],
   noResp,
   fun _ => .ok (.obj [("attachments", .arr [attC6a, attC6b])]),
   fun an _ => match an with | .str "attachments/1" => .ok [7] | _ => .ok [8, 9]⟩

/-- All file paths recorded across the report's memo records, in order. -/
def pathsOf (recs : List MemoRecord) : List String :=
  recs.flatMap fun rec => rec.attachments.map (fun ref => ref.file_path)

/-- Attachment metadata objects the driver would iterate for a given memo
name: the well-formed reading of the `attach` response (empty when the fetch
fails or the value is not iterable). -/
def envMetas (env : Env) (mn : JVal) : List JVal :=
  match jIter (get_memo_attachments env mn) with
  | .ok l => l
  | .error _ => []

/-- Provenance of an `AttachmentRef` in the report: it was built from some
attachment metadata object served by the environment, its download succeeded
with contents `c`, and the file chosen for it still holds exactly `c`. -/
def refGood (env : Env) (fs : FS) (ref : AttachmentRef) : Prop :=
  ∃ mn att an fn c n, att ∈ envMetas env mn ∧
    jGetD att "name" (.str "") = .ok an ∧
    jGetD att "filename" (.str "") = .ok fn ∧
    env.download an fn = .ok c ∧
    mkAttachmentRef att ("attachments/" ++ n) = .ok ref ∧
    ref.file_path = "attachments/" ++ n ∧
    fsLookup fs n = some c

/-- Invariant tying the recorded file paths to the attachments directory:
the paths are pairwise distinct and each names an existing file. -/
def invP (fs : FS) (P : List String) : Prop :=
  P.Nodup ∧ ∀ p ∈ P, ∃ n c, p = "attachments/" ++ n ∧ fsLookup fs n = some c

/-- Name component of a recorded attachment path: the part after the
`attachments/` directory prefix. -/
def pathTail (p : String) : String := ⟨p.data.drop 12⟩

/-- Precondition of claim C3: whenever an attachment metadata object served
by the environment leads to a successful download, its `size` field equals
the downloaded byte count. -/
def sizeAccurate (env : Env) : Prop :=
  ∀ mn att an fn c, att ∈ envMetas env mn →
    jGetD att "name" (.str "") = .ok an →
    jGetD att "filename" (.str "") = .ok fn →
    env.download an fn = .ok c →
    jGetD att "size" (.num 0) = .ok (.num c.length)

/-- One page of the listing as served by the environment in claim C5. -/
structure PageSpec where
  memos : List JVal
  tok : String

/-- JSON response for a `PageSpec`. -/
def mkPage (p : PageSpec) : JVal := .obj [("memos", .arr p.memos), ("nextPageToken", .str p.tok)]

/-- Classifier for appended outcomes. -/
def MemoOutcome.isAppended : MemoOutcome → Bool
  | .appended _ => true
  | _ => false

/-- Record carried by an appended outcome (with a default elsewhere). -/
def MemoOutcome.getRec : MemoOutcome → MemoRecord → MemoRecord
  | .appended r, _ => r
  | _, dflt => dflt

/-- Default memo record used only to give total projections. -/
def defaultRec : MemoRecord :=
  ⟨.null, .null, .null, .null, .null, .null, .null, .null, .null, .null, [], none, none, none, none⟩

/-- Default attachment ref used only to give total projections. -/
def defaultRef : AttachmentRef := ⟨.null, .null, "", .null, .null, .null⟩

/-- Default report used only to give total projections. -/
def defaultReport : ExportReport := ⟨none, [], ⟨0, 0, []⟩⟩

/-- Value of `memo.get("name", "")` for a summary object (empty string for a
non-dict, where the driver would have raised earlier). -/
def summaryName (m : JVal) : JVal :=
  match m with
  | .obj fields => (fields.lookup "name").getD (.str "")
  | _ => .str ""

/-- The `name` field of a summary is absent or a string (the shape the API
promises); under it, falsiness of the name is exactly "missing or empty". -/
def nameWellTyped (m : JVal) : Bool :=
  match m with
  | .obj fields =>
    match fields.lookup "name" with
    | none => true
    | some (.str _) => true
    | some _ => false
  | _ => true

/-- The summary's `name` field is missing or the empty string. -/
def nameMissingOrEmpty (m : JVal) : Bool :=
  match m with
  | .obj fields =>
    match fields.lookup "name" with
    | none => true
    | some (.str s) => s == ""
    | some _ => false
  | _ => false

/-- Well-formed memo summary used across the concrete scenarios. -/
def memoOk : JVal := .obj [("name", .str "memos/1")]

/-- Environment with one listed memo whose detail and attachment fetches
fail: the memo is exported from its summary with no attachments and no
error. -/
def envOk : Env := ⟨okUserResp, [onePage [memoOk]], noResp, noResp, noDownload⟩

/-- Report written by the `envOk` run. -/
def rOk : ExportReport := ((export_memos_run envOk []).report).getD defaultReport

/-- Attachment metadata with an accurate 2-byte size for the C3 scenario. -/
def attC3 : JVal :=
  .obj [("name", .str "attachments/7"), ("filename", .str "a.bin"), ("size", .num 2)]

/-- Environment whose single memo has one attachment downloading two bytes,
with `size` metadata matching. -/
def envC3 : Env :=
  ⟨okUserResp, [onePage [memoOk]], noResp,
   fun _ => .ok (.obj [("attachments", .arr [attC3])]),
   fun _ _ => .ok [9, 9]⟩

/-- Report written by the `envC3` run. -/
def rC3 : ExportReport := ((export_memos_run envC3 []).report).getD defaultReport

/-- The single memo record of the `envC3` run. -/
def recC3 : MemoRecord := rC3.memos.headD defaultRec

/-- The single attachment ref of the `envC3` run. -/
def refC3 : AttachmentRef := recC3.attachments.headD defaultRef

/-- Environment whose single memo's detail response carries a truthy
non-dict `memo` value, so the record build raises after the fetches. -/
def envC4 : Env :=
  ⟨okUserResp, [onePage [memoOk]], fun _ => .ok (.obj [("memo", .num 5)]), noResp, noDownload⟩

/-- First listing page of the C5 witness: two memos, nonempty token. -/
def pageA : PageSpec := ⟨[.str "m1", .str "m2"], "tok2"⟩

/-- Second listing page of the C5 witness: one memo, empty token. -/
def pageB : PageSpec := ⟨[.str "m3"], ""⟩

/-- Report written by the `envC6` run. -/
def rC6 : ExportReport := ((export_memos_run envC6 []).report).getD defaultReport

/-- Environment whose session lookup fails with HTTP 401. -/
def envC8 : Env := ⟨.error (.http "HTTP 401"), [], noResp, noResp, noDownload⟩

/-- Environment for the C9 witness (never reached: the download is refused
before any request). -/
def envC9 : Env := ⟨okUserResp, [], noResp, noResp, noDownload⟩

/-- Attachment metadata with a resource name but no filename. -/
def attC9 : JVal := .obj [("name", .str "attachments/1")]

/-- Environment listing one well-formed memo and one summary with no
`name` field. -/
def envC10 : Env := ⟨okUserResp, [onePage [memoOk, .obj []]], noResp, noResp, noDownload⟩

/-- Report written by the `envC10` run. -/
def rC10 : ExportReport := ((export_memos_run envC10 []).report).getD defaultReport

theorem valOfChars_append (l : List Char) (c : Char) :
    valOfChars (l ++ [c]) = valOfChars l * 10 + (c.toNat - 48) := by
  unfold valOfChars
  rw [List.foldl_append]
  rfl

theorem digitChar_toNat (d : Nat) (h : d < 10) : (Nat.digitChar d).toNat = 48 + d := by
  interval_cases d <;> rfl

theorem valOfChars_natStrGo : ∀ fuel n, n ≤ fuel → valOfChars (natStrGo fuel n) = n := by
  intro fuel
  induction fuel with
  | zero =>
    intro n hn
    have : n = 0 := Nat.le_zero.mp hn
    subst this
    rfl
  | succ f ih =>
    intro n hn
    by_cases h0 : n = 0
    · subst h0; simp [natStrGo, valOfChars]
    · have hdiv : n / 10 ≤ f := by
        have : n / 10 < n := Nat.div_lt_self (Nat.pos_of_ne_zero h0) (by omega)
        omega
      have hmod : n % 10 < 10 := Nat.mod_lt _ (by omega)
      simp only [natStrGo, if_neg h0]
      rw [valOfChars_append, ih _ hdiv, digitChar_toNat _ hmod]
      omega

theorem natStr_inj {a b : Nat} (ha : 1 ≤ a) (hb : 1 ≤ b) (h : natStr a = natStr b) : a = b := by
  have ha0 : a ≠ 0 := by omega
  have hb0 : b ≠ 0 := by omega
  unfold natStr at h
  rw [if_neg ha0, if_neg hb0] at h
  have hdata : natStrGo a a = natStrGo b b := congrArg String.data h
  have := valOfChars_natStrGo a a (Nat.le_refl a)
  rw [hdata, valOfChars_natStrGo b b (Nat.le_refl b)] at this
  omega

theorem string_data_append (s t : String) : (s ++ t).data = s.data ++ t.data := by
  cases s; cases t; rfl

theorem string_append_left_cancel {a b c : String} (h : a ++ b = a ++ c) : b = c := by
  have := congrArg String.data h
  rw [string_data_append, string_data_append] at this
  exact String.ext (List.append_cancel_left this)

theorem string_append_right_cancel {a b c : String} (h : a ++ c = b ++ c) : a = b := by
  have := congrArg String.data h
  rw [string_data_append, string_data_append] at this
  exact String.ext (List.append_cancel_right this)

theorem cand_inj {stem suffix : String} {i j : Nat} (hi : 1 ≤ i) (hj : 1 ≤ j)
    (h : cand stem suffix i = cand stem suffix j) : i = j := by
  unfold cand at h
  have h1 : stem ++ "_" ++ natStr i = stem ++ "_" ++ natStr j := string_append_right_cancel h
  have h2 : natStr i = natStr j := by
    have := congrArg String.data h1
    rw [string_data_append, string_data_append] at this
    exact String.ext (List.append_cancel_left this)
  exact natStr_inj hi hj h2

theorem resolveLoop_free (ns : List String) (stem suffix : String) :
    ∀ fuel k, (∃ j, k ≤ j ∧ j ≤ k + fuel ∧ cand stem suffix j ∉ ns) →
    resolveLoop ns stem suffix fuel k ∉ ns := by
  intro fuel
  induction fuel with
  | zero =>
    intro k ⟨j, hkj, hjk, hfree⟩
    have : j = k := by omega
    subst this
    simpa [resolveLoop] using hfree
  | succ f ih =>
    intro k ⟨j, hkj, hjk, hfree⟩
    by_cases hmem : cand stem suffix k ∈ ns
    · simp only [resolveLoop, if_pos hmem]
      refine ih (k + 1) ⟨j, ?_, by omega, hfree⟩
      rcases Nat.eq_or_lt_of_le hkj with h | h
      · subst h; exact absurd hmem hfree
      · omega
    · simpa [resolveLoop, if_neg hmem] using hmem

theorem exists_free_cand (ns : List String) (stem suffix : String) :
    ∃ j, 1 ≤ j ∧ j ≤ 1 + ns.length ∧ cand stem suffix j ∉ ns := by
  by_contra hall
  push_neg at hall
  have hsub : (Finset.Icc 1 (1 + ns.length)).image (cand stem suffix) ⊆ ns.toFinset := by
    intro x hx
    rcases Finset.mem_image.mp hx with ⟨j, hj, rfl⟩
    rcases Finset.mem_Icc.mp hj with ⟨h1, h2⟩
    exact List.mem_toFinset.mpr (hall j h1 h2)
  have hinj : Set.InjOn (cand stem suffix) (Finset.Icc 1 (1 + ns.length)) := by
    intro i hi j hj hij
    have hi1 : 1 ≤ i := (Finset.mem_Icc.mp hi).1
    have hj1 : 1 ≤ j := (Finset.mem_Icc.mp hj).1
    exact cand_inj hi1 hj1 hij
  have hcard : ((Finset.Icc 1 (1 + ns.length)).image (cand stem suffix)).card = ns.length + 1 := by
    rw [Finset.card_image_of_injOn hinj, Nat.card_Icc]
    omega
  have hle : ns.length + 1 ≤ ns.toFinset.card := hcard ▸ Finset.card_le_card hsub
  have := List.toFinset_card_le ns
  omega

theorem resolveName_not_mem (ns : List String) (filename : String) :
    resolveName ns filename ∉ ns := by
  unfold resolveName
  by_cases h : filename ∈ ns
  · simp only [if_pos h]
    rcases exists_free_cand ns (splitExt filename).1 (splitExt filename).2 with ⟨j, h1, h2, hfree⟩
    exact resolveLoop_free ns _ _ ns.length 1 ⟨j, h1, by omega, hfree⟩
  · simpa [if_neg h] using h

theorem resolveName_cand_form (ns : List String) (filename : String) (h : filename ∈ ns) :
    ∃ k, 1 ≤ k ∧ resolveName ns filename = cand (splitExt filename).1 (splitExt filename).2 k := by
  unfold resolveName
  rw [if_pos h]
  have : ∀ fuel k0, 1 ≤ k0 → ∃ k, 1 ≤ k ∧
      resolveLoop ns (splitExt filename).1 (splitExt filename).2 fuel k0 =
        cand (splitExt filename).1 (splitExt filename).2 k := by
    intro fuel
    induction fuel with
    | zero => intro k0 hk0; exact ⟨k0, hk0, rfl⟩
    | succ f ih =>
      intro k0 hk0
      by_cases hmem : cand (splitExt filename).1 (splitExt filename).2 k0 ∈ ns
      · simp only [resolveLoop, if_pos hmem]
        exact ih (k0 + 1) (by omega)
      · exact ⟨k0, hk0, by simp [resolveLoop, if_neg hmem]⟩
  exact this ns.length 1 (Nat.le_refl 1)

theorem memo_loop_eq_sim (env : Env) : ∀ (memos : List JVal) (fs : FS) (ta : Nat)
    (errs : List String) (recs : List MemoRecord),
    (∀ m ∈ memos, m.isObj = true) →
    memo_loop env memos fs ta errs recs =
      ((loop_sim env memos fs ta).1,
        .ok ((loop_sim env memos fs ta).2.1,
             errs ++ outErrs (loop_sim env memos fs ta).2.2,
             recs ++ outRecs (loop_sim env memos fs ta).2.2)) := by
  intro memos
  induction memos with
  | nil => intro fs ta errs recs _; simp [memo_loop, loop_sim, outErrs, outRecs]
  | cons memo rest ih =>
    intro fs ta errs recs hobj
    have hm : memo.isObj = true := hobj memo (List.mem_cons_self _ _)
    have hrest : ∀ m ∈ rest, m.isObj = true := fun m hmem => hobj m (List.mem_cons_of_mem _ hmem)
    cases memo with
    | obj fields =>
      rcases hp : process_memo env fs ta (.obj fields) with ⟨fs', ta', out⟩
      rcases hs : loop_sim env rest fs' ta' with ⟨fs'', ta'', outs⟩
      cases out with
      | skipped =>
        simp only [memo_loop, jGetD, loop_sim, hp, hs, ih fs' ta' errs recs hrest, outErrs,
          outRecs, List.filterMap_cons, List.append_assoc]
      | appended rec =>
        simp only [memo_loop, jGetD, loop_sim, hp, hs, ih fs' ta' errs (recs ++ [rec]) hrest,
          outErrs, outRecs, List.filterMap_cons, List.append_assoc, List.singleton_append]
      | errored msg =>
        simp only [memo_loop, jGetD, loop_sim, hp, hs, ih fs' ta' (errs ++ [msg]) recs hrest,
          outErrs, outRecs, List.filterMap_cons, List.append_assoc, List.singleton_append]
    | null => simp [JVal.isObj] at hm
    | bool b => simp [JVal.isObj] at hm
    | num n => simp [JVal.isObj] at hm
    | str s => simp [JVal.isObj] at hm
    | arr l => simp [JVal.isObj] at hm

theorem loop_sim_length (env : Env) : ∀ (memos : List JVal) (fs : FS) (ta : Nat),
    (loop_sim env memos fs ta).2.2.length = memos.length := by
  intro memos
  induction memos with
  | nil => intro fs ta; rfl
  | cons m rest ih =>
    intro fs ta
    rcases hp : process_memo env fs ta m with ⟨fs', ta', out⟩
    rcases hs : loop_sim env rest fs' ta' with ⟨fs'', ta'', outs⟩
    have := ih fs' ta'
    rw [hs] at this
    simp [loop_sim, hp, hs, this]

/-- Claim C1 fails on the code: in this run the listing completes and the
report is written (exit code 0), yet `summary.total_memos = 1` while
`len(memos) = 0`, because the single summary has no `name` and is skipped by
`continue` after already being counted. -/
theorem c1_counterexample :
    (export_memos_run envC1 []).report.map (fun r => (r.summary.total_memos, r.memos.length)) =
      some (1, 0) ∧ (export_memos_run envC1 []).exitCode = 0 := ⟨rfl, rfl⟩

/-- Claim C2 fails on the code: this run reaches FINALIZE with
`summary.total_attachments = 1` although the `memos` array is empty (its
attachment total is 0): the memo's record build raised after the download,
so the memo was dropped while its download stayed counted. -/
theorem c2_counterexample :
    (export_memos_run envC2 []).report.map
        (fun r => (r.summary.total_attachments,
                   (r.memos.flatMap (fun rec => rec.attachments)).length,
                   r.summary.export_errors)) =
      some (1, 0, ["Memo memos/1: AttributeError"]) := rfl

theorem mem_fsNames_of_lookup : ∀ {fs : FS} {n : String} {c : List Nat},
    fsLookup fs n = some c → n ∈ fsNames fs := by
  intro fs
  induction fs with
  | nil => intro n c h; simp [fsLookup, List.lookup] at h
  | cons p t ih =>
    intro n c h
    simp only [fsLookup, List.lookup] at h
    cases he : n == p.1 with
    | true =>
      have : n = p.1 := by simpa using he
      simp [fsNames, this]
    | false =>
      simp only [he] at h
      exact List.mem_cons_of_mem _ (ih h)

theorem fsLookup_append_old {fs : FS} {n : String} {c : List Nat}
    (h : fsLookup fs n = some c) (x : String × List Nat) :
    fsLookup (fs ++ [x]) n = some c := by
  induction fs with
  | nil => simp [fsLookup, List.lookup] at h
  | cons p t ih =>
    simp only [fsLookup, List.lookup, List.cons_append] at h ⊢
    cases he : n == p.1 with
    | true => simpa only [he] using h
    | false =>
      simp only [he] at h ⊢
      exact ih h

theorem fsLookup_append_new {fs : FS} {n : String} (h : n ∉ fsNames fs) (c : List Nat) :
    fsLookup (fs ++ [(n, c)]) n = some c := by
  induction fs with
  | nil => simp [fsLookup, List.lookup]
  | cons p t ih =>
    have hne : n ≠ p.1 := fun he => h (by simp [fsNames, he])
    have ht : n ∉ fsNames t := fun hm => h (List.mem_cons_of_mem _ hm)
    simp only [fsLookup, List.lookup, List.cons_append]
    have hb : (n == p.1) = false := by simpa using hne
    simp only [hb]
    exact ih ht

theorem fsWrite_fresh {fs : FS} {n : String} (h : n ∉ fsNames fs) (c : List Nat) :
    fsWrite fs n c = fs ++ [(n, c)] := by
  unfold fsWrite
  rw [if_neg h]

theorem download_attachment_cases (env : Env) (fs : FS) (att : JVal) :
    (∃ req, download_attachment env fs att = (none, fs, req)) ∨
    (∃ an f c, jGetD att "name" (.str "") = .ok an ∧
      jGetD att "filename" (.str "") = .ok (.str f) ∧
      truthy an = true ∧ truthy (.str f) = true ∧ env.download an (.str f) = .ok c ∧
      resolveName (fsNames fs) f ∉ fsNames fs ∧
      download_attachment env fs att =
        (some ("attachments/" ++ resolveName (fsNames fs) f),
         fs ++ [(resolveName (fsNames fs) f, c)], true)) := by
  cases hn : jGetD att "name" (.str "") with
  | error e =>
    refine Or.inl ⟨false, ?_⟩
    simp only [download_attachment, hn]
  | ok an =>
    cases hf : jGetD att "filename" (.str "") with
    | error e =>
      refine Or.inl ⟨false, ?_⟩
      simp only [download_attachment, hn, hf]
    | ok fn =>
      by_cases htr : ¬ truthy an = true ∨ ¬ truthy fn = true
      · refine Or.inl ⟨false, ?_⟩
        simp only [download_attachment, hn, hf, if_pos htr]
      · cases hd : env.download an fn with
        | error e =>
          refine Or.inl ⟨true, ?_⟩
          simp only [download_attachment, hn, hf, if_neg htr, hd]
        | ok content =>
          push_neg at htr
          cases fn with
          | str f =>
            refine Or.inr ⟨an, f, content, rfl, rfl, htr.1, htr.2, hd, resolveName_not_mem _ _, ?_⟩
            simp only [download_attachment, hn, hf, hd]
            rw [if_neg (by simp [htr.1, htr.2])]
            rw [fsWrite_fresh (resolveName_not_mem _ _) content]
          | null => exact absurd htr.2 (by simp [truthy])
          | bool b =>
            refine Or.inl ⟨true, ?_⟩
            simp only [download_attachment, hn, hf, hd]
            rw [if_neg (by simp [htr.1, htr.2])]
          | num n =>
            refine Or.inl ⟨true, ?_⟩
            simp only [download_attachment, hn, hf, hd]
            rw [if_neg (by simp [htr.1, htr.2])]
          | arr l =>
            refine Or.inl ⟨true, ?_⟩
            simp only [download_attachment, hn, hf, hd]
            rw [if_neg (by simp [htr.1, htr.2])]
          | obj l =>
            refine Or.inl ⟨true, ?_⟩
            simp only [download_attachment, hn, hf, hd]
            rw [if_neg (by simp [htr.1, htr.2])]

theorem download_persist (env : Env) (fs : FS) (att : JVal) {m : String} {c : List Nat}
    (h : fsLookup fs m = some c) :
    fsLookup (download_attachment env fs att).2.1 m = some c := by
  rcases download_attachment_cases env fs att with ⟨req, heq⟩ | ⟨an, f, ct, _, _, _, _, _, _, heq⟩
  · rw [heq]; exact h
  · rw [heq]; exact fsLookup_append_old h _

theorem jGetD_ok_obj {v : JVal} {k : String} {d x : JVal} (h : jGetD v k d = .ok x) :
    ∃ l, v = .obj l := by
  cases v with
  | obj l => exact ⟨l, rfl⟩
  | null => simp [jGetD] at h
  | bool b => simp [jGetD] at h
  | num n => simp [jGetD] at h
  | str s => simp [jGetD] at h
  | arr l => simp [jGetD] at h

theorem mkAttachmentRef_obj (l : List (String × JVal)) (path : String) :
    mkAttachmentRef (.obj l) path =
      .ok ⟨((l.lookup "name").getD (.str "")), ((l.lookup "filename").getD (.str "")), path,
           ((l.lookup "type").getD (.str "")), ((l.lookup "size").getD (.num 0)),
           ((l.lookup "createTime").getD (.str ""))⟩ := rfl

theorem refGood_persist {env : Env} {fs fs' : FS} {ref : AttachmentRef}
    (h : refGood env fs ref)
    (hp : ∀ m c, fsLookup fs m = some c → fsLookup fs' m = some c) :
    refGood env fs' ref := by
  rcases h with ⟨mn, att, an, fn, c, n, h1, h2, h3, h4, h5, h6, h7⟩
  exact ⟨mn, att, an, fn, c, n, h1, h2, h3, h4, h5, h6, hp n c h7⟩

theorem invP_persist {fs fs' : FS} {P : List String} (h : invP fs P)
    (hp : ∀ m c, fsLookup fs m = some c → fsLookup fs' m = some c) : invP fs' P := by
  rcases h with ⟨hnd, hmem⟩
  refine ⟨hnd, fun p hpP => ?_⟩
  rcases hmem p hpP with ⟨n, c, hpath, hlook⟩
  exact ⟨n, c, hpath, hp n c hlook⟩

theorem invP_snoc {fs : FS} {P : List String} {n : String} (h : invP fs P)
    (hfresh : n ∉ fsNames fs) (c : List Nat) :
    invP (fs ++ [(n, c)]) (P ++ ["attachments/" ++ n]) := by
  rcases h with ⟨hnd, hmem⟩
  constructor
  · rw [List.nodup_append]
    refine ⟨hnd, List.nodup_singleton _, fun p hpP hpx => ?_⟩
    rcases List.mem_singleton.mp hpx with rfl
    rcases hmem _ hpP with ⟨m, c', hpath, hlook⟩
    have hm : m = n := string_append_left_cancel hpath.symm
    exact hfresh (hm ▸ mem_fsNames_of_lookup hlook)
  · intro p hp
    rcases List.mem_append.mp hp with hpP | hpx
    · rcases hmem p hpP with ⟨m, c', hpath, hlook⟩
      exact ⟨m, c', hpath, fsLookup_append_old hlook _⟩
    · rcases List.mem_singleton.mp hpx with rfl
      exact ⟨n, c, rfl, fsLookup_append_new hfresh c⟩

theorem attach_loop_spec (env : Env) (mn : JVal) :
    ∀ (atts : List JVal), (∀ a ∈ atts, a ∈ envMetas env mn) →
    ∀ (fs : FS) (ta : Nat) (refs : List AttachmentRef) (P : List String),
    invP fs (P ++ refs.map (fun ref => ref.file_path)) →
    (∀ ref ∈ refs, refGood env fs ref) →
    (∀ (m : String) (cc : List Nat), fsLookup fs m = some cc →
        fsLookup (attach_loop env atts fs ta refs).1 m = some cc) ∧
    (∀ refs', (attach_loop env atts fs ta refs).2.2 = .ok refs' →
      invP (attach_loop env atts fs ta refs).1 (P ++ refs'.map (fun ref => ref.file_path)) ∧
      (∀ ref ∈ refs', refGood env (attach_loop env atts fs ta refs).1 ref) ∧
      (attach_loop env atts fs ta refs).2.1 + refs.length = ta + refs'.length) := by
  intro atts
  induction atts with
  | nil =>
    intro _ fs ta refs P hinv hgood
    refine ⟨fun m cc h => h, fun refs' heq => ?_⟩
    have : refs = refs' := by simpa [attach_loop] using heq
    subst this
    exact ⟨hinv, hgood, rfl⟩
  | cons att rest ih =>
    intro hmetas fs ta refs P hinv hgood
    have hrest : ∀ a ∈ rest, a ∈ envMetas env mn :=
      fun a ha => hmetas a (List.mem_cons_of_mem _ ha)
    have hatt : att ∈ envMetas env mn := hmetas att (List.mem_cons_self _ _)
    rcases download_attachment_cases env fs att with ⟨req, heq⟩ |
      ⟨an, f, c, h1, h2, h3, h4, h5, h6, heq⟩
    · have hred : attach_loop env (att :: rest) fs ta refs = attach_loop env rest fs ta refs := by
        simp only [attach_loop, heq]
      rw [hred]
      exact ih hrest fs ta refs P hinv hgood
    · rcases jGetD_ok_obj h1 with ⟨l, rfl⟩
      set n := resolveName (fsNames fs) f with hn
      set fs2 : FS := fs ++ [(n, c)] with hfs2
      set refNew : AttachmentRef :=
        ⟨((l.lookup "name").getD (.str "")), ((l.lookup "filename").getD (.str "")),
         "attachments/" ++ n, ((l.lookup "type").getD (.str "")),
         ((l.lookup "size").getD (.num 0)), ((l.lookup "createTime").getD (.str ""))⟩ with hrefNew
      have hred : attach_loop env (JVal.obj l :: rest) fs ta refs =
          attach_loop env rest fs2 (ta + 1) (refs ++ [refNew]) := by
        simp only [attach_loop, heq, mkAttachmentRef_obj]
      have hpersist1 : ∀ m cc, fsLookup fs m = some cc → fsLookup fs2 m = some cc :=
        fun m cc h => fsLookup_append_old h _
      have hinv2 : invP fs2 (P ++ (refs ++ [refNew]).map (fun ref => ref.file_path)) := by
        have := invP_snoc hinv h6 c
        simpa [List.map_append, List.append_assoc] using this
      have hgood2 : ∀ ref ∈ refs ++ [refNew], refGood env fs2 ref := by
        intro ref href
        rcases List.mem_append.mp href with hold | hnew
        · exact refGood_persist (hgood ref hold) hpersist1
        · rcases List.mem_singleton.mp hnew with rfl
          exact ⟨mn, .obj l, an, .str f, c, n, hatt, h1, h2, h5,
            mkAttachmentRef_obj l ("attachments/" ++ n), rfl, fsLookup_append_new h6 c⟩
      rw [hred]
      rcases ih hrest fs2 (ta + 1) (refs ++ [refNew]) P hinv2 hgood2 with ⟨hpA, hpB⟩
      refine ⟨fun m cc h => hpA m cc (hpersist1 m cc h), fun refs' heq' => ?_⟩
      rcases hpB refs' heq' with ⟨hi, hg, hcount⟩
      refine ⟨hi, hg, ?_⟩
      simp only [List.length_append, List.length_singleton] at hcount
      omega

theorem attach_loop_ok (env : Env) : ∀ (atts : List JVal) (fs : FS) (ta : Nat)
    (refs : List AttachmentRef),
    ∃ fs' ta' refs', attach_loop env atts fs ta refs = (fs', ta', .ok refs') := by
  intro atts
  induction atts with
  | nil => intro fs ta refs; exact ⟨fs, ta, refs, rfl⟩
  | cons att rest ih =>
    intro fs ta refs
    rcases download_attachment_cases env fs att with ⟨req, heq⟩ |
      ⟨an, f, c, h1, h2, h3, h4, h5, h6, heq⟩
    · simp only [attach_loop, heq]
      exact ih fs ta refs
    · rcases jGetD_ok_obj h1 with ⟨l, rfl⟩
      simp only [attach_loop, heq, mkAttachmentRef_obj]
      exact ih _ _ _

theorem mkMemoExport_obj (l : List (String × JVal)) (refs : List AttachmentRef) :
    mkMemoExport (.obj l) refs =
      .ok ⟨((l.lookup "name").getD (.str "")), ((l.lookup "content").getD (.str "")),
           ((l.lookup "createTime").getD (.str "")), ((l.lookup "updateTime").getD (.str "")),
           ((l.lookup "displayTime").getD (.str "")), ((l.lookup "visibility").getD (.str "PRIVATE")),
           ((l.lookup "pinned").getD (.bool false)), ((l.lookup "tags").getD (.arr [])),
           ((l.lookup "snippet").getD (.str "")), ((l.lookup "state").getD (.str "NORMAL")), refs,
           optField (.obj l) "location", optField (.obj l) "parent",
           optField (.obj l) "relations", optField (.obj l) "reactions"⟩ := rfl

theorem mkMemoExport_attachments {d : JVal} {refs : List AttachmentRef} {rec : MemoRecord}
    (h : mkMemoExport d refs = .ok rec) : rec.attachments = refs := by
  cases d with
  | obj l =>
    rw [mkMemoExport_obj] at h
    cases h
    rfl
  | null => exact Except.noConfusion h
  | bool b => exact Except.noConfusion h
  | num n => exact Except.noConfusion h
  | str s => exact Except.noConfusion h
  | arr l => exact Except.noConfusion h

theorem envMetas_eq {env : Env} {mn : JVal} {atts : List JVal}
    (h : jIter (get_memo_attachments env mn) = .ok atts) : envMetas env mn = atts := by
  simp only [envMetas, h]

theorem process_memo_spec (env : Env) (fs : FS) (ta : Nat) (memo : JVal) (P : List String)
    (hinv : invP fs P) :
    (∀ m cc, fsLookup fs m = some cc → fsLookup (process_memo env fs ta memo).1 m = some cc) ∧
    invP (process_memo env fs ta memo).1 P ∧
    (∀ rec, (process_memo env fs ta memo).2.2 = .appended rec →
      invP (process_memo env fs ta memo).1 (P ++ rec.attachments.map (fun ref => ref.file_path)) ∧
      (∀ ref ∈ rec.attachments, refGood env (process_memo env fs ta memo).1 ref) ∧
      (process_memo env fs ta memo).2.1 = ta + rec.attachments.length) ∧
    ((process_memo env fs ta memo).2.2 = .skipped →
      (process_memo env fs ta memo).1 = fs ∧ (process_memo env fs ta memo).2.1 = ta) := by
  cases hname : jGetD memo "name" (.str "") with
  | error e =>
    have hred : process_memo env fs ta memo = (fs, ta, .errored (errMsg memo e)) := by
      simp only [process_memo, hname]
    rw [hred]
    exact ⟨fun m cc h => h, hinv, fun rec h => by simp at h, fun h => by simp at h⟩
  | ok mname =>
    by_cases htr : ¬ truthy mname = true
    · have hred : process_memo env fs ta memo = (fs, ta, .skipped) := by
        simp only [process_memo, hname, if_pos htr]
      rw [hred]
      exact ⟨fun m cc h => h, hinv, fun rec h => by simp at h, fun _ => ⟨rfl, rfl⟩⟩
    · cases hit : jIter (get_memo_attachments env mname) with
      | error e =>
        have hred : process_memo env fs ta memo = (fs, ta, .errored (errMsg memo e)) := by
          simp only [process_memo, hname, if_neg htr, hit]
        rw [hred]
        exact ⟨fun m cc h => h, hinv, fun rec h => by simp at h, fun h => by simp at h⟩
      | ok atts =>
        have hmetas : ∀ a ∈ atts, a ∈ envMetas env mname := by
          intro a ha
          rw [envMetas_eq hit]
          exact ha
        have hinv0 : invP fs (P ++ ([] : List AttachmentRef).map (fun ref => ref.file_path)) := by
          simpa using hinv
        rcases attach_loop_ok env atts fs ta [] with ⟨fs', ta', refs, hal⟩
        rcases attach_loop_spec env mname atts hmetas fs ta [] P hinv0
          (fun ref h => absurd h (List.not_mem_nil ref)) with ⟨hpers, hok⟩
        rcases hok refs (by rw [hal]) with ⟨hinvR, hgoodR, hcount⟩
        rw [hal] at hpers hinvR hgoodR hcount
        simp only [List.length_nil, Nat.add_zero] at hcount
        cases hmk : mkMemoExport (if truthy (get_memo_details env mname) then
            get_memo_details env mname else memo) refs with
        | error e =>
          have hred : process_memo env fs ta memo = (fs', ta', .errored (errMsg memo e)) := by
            simp only [process_memo, hname, if_neg htr, hit, hal, hmk]
          rw [hred]
          exact ⟨hpers, invP_persist hinv hpers, fun rec h => by simp at h, fun h => by simp at h⟩
        | ok rec =>
          have hred : process_memo env fs ta memo = (fs', ta', .appended rec) := by
            simp only [process_memo, hname, if_neg htr, hit, hal, hmk]
          rw [hred]
          have hatt : rec.attachments = refs := mkMemoExport_attachments hmk
          refine ⟨hpers, invP_persist hinv hpers, fun rec' h => ?_, fun h => by simp at h⟩
          have : rec' = rec := by cases h; rfl
          subst this
          rw [hatt]
          exact ⟨hinvR, hgoodR, by simpa using hcount⟩

theorem outRecs_cons_skipped (outs : List MemoOutcome) :
    outRecs (.skipped :: outs) = outRecs outs := by
  simp [outRecs, List.filterMap_cons]

theorem outRecs_cons_errored (msg : String) (outs : List MemoOutcome) :
    outRecs (.errored msg :: outs) = outRecs outs := by
  simp [outRecs, List.filterMap_cons]

theorem outRecs_cons_appended (rec : MemoRecord) (outs : List MemoOutcome) :
    outRecs (.appended rec :: outs) = rec :: outRecs outs := by
  simp [outRecs, List.filterMap_cons]

theorem pathsOf_cons (rec : MemoRecord) (recs : List MemoRecord) :
    pathsOf (rec :: recs) = rec.attachments.map (fun ref => ref.file_path) ++ pathsOf recs := by
  simp [pathsOf]

theorem loop_sim_inv (env : Env) : ∀ (memos : List JVal) (fs : FS) (ta : Nat) (P : List String),
    invP fs P →
    (∀ m cc, fsLookup fs m = some cc → fsLookup (loop_sim env memos fs ta).1 m = some cc) ∧
    invP (loop_sim env memos fs ta).1 (P ++ pathsOf (outRecs (loop_sim env memos fs ta).2.2)) ∧
    (∀ rec ∈ outRecs (loop_sim env memos fs ta).2.2, ∀ ref ∈ rec.attachments,
      refGood env (loop_sim env memos fs ta).1 ref) := by
  intro memos
  induction memos with
  | nil =>
    intro fs ta P hinv
    refine ⟨fun m cc h => h, ?_, ?_⟩
    · simpa [loop_sim, outRecs, pathsOf] using hinv
    · simp [loop_sim, outRecs]
  | cons m rest ih =>
    intro fs ta P hinv
    rcases hp : process_memo env fs ta m with ⟨fs1, ta1, out⟩
    rcases hs : loop_sim env rest fs1 ta1 with ⟨fs2, ta2, outs⟩
    have hred : loop_sim env (m :: rest) fs ta = (fs2, ta2, out :: outs) := by
      simp [loop_sim, hp, hs]
    rw [hred]
    rcases process_memo_spec env fs ta m P hinv with ⟨pm1, pm2, pm3, _⟩
    rw [hp] at pm1 pm2 pm3
    cases out with
    | skipped =>
      rcases ih fs1 ta1 P pm2 with ⟨ih1, ih2, ih3⟩
      rw [hs] at ih1 ih2 ih3
      refine ⟨fun mm cc h => ih1 mm cc (pm1 mm cc h), ?_, ?_⟩
      · simpa [outRecs_cons_skipped] using ih2
      · simpa [outRecs_cons_skipped] using ih3
    | errored msg =>
      rcases ih fs1 ta1 P pm2 with ⟨ih1, ih2, ih3⟩
      rw [hs] at ih1 ih2 ih3
      refine ⟨fun mm cc h => ih1 mm cc (pm1 mm cc h), ?_, ?_⟩
      · simpa [outRecs_cons_errored] using ih2
      · simpa [outRecs_cons_errored] using ih3
    | appended rec =>
      rcases pm3 rec rfl with ⟨pA, pB, _⟩
      rcases ih fs1 ta1 (P ++ rec.attachments.map (fun ref => ref.file_path)) pA with
        ⟨ih1, ih2, ih3⟩
      rw [hs] at ih1 ih2 ih3
      refine ⟨fun mm cc h => ih1 mm cc (pm1 mm cc h), ?_, ?_⟩
      · rw [outRecs_cons_appended, pathsOf_cons]
        simpa [List.append_assoc] using ih2
      · rw [outRecs_cons_appended]
        intro rec' hrec' ref href
        rcases List.mem_cons.mp hrec' with rfl | hmem
        · exact refGood_persist (pB ref href) ih1
        · exact ih3 rec' hmem ref href

theorem memo_loop_ok_obj (env : Env) : ∀ (memos : List JVal) (fs : FS) (ta : Nat)
    (errs : List String) (recs : List MemoRecord) (fs' : FS)
    (res : Nat × List String × List MemoRecord),
    memo_loop env memos fs ta errs recs = (fs', .ok res) → ∀ m ∈ memos, m.isObj = true := by
  intro memos
  induction memos with
  | nil => intro fs ta errs recs fs' res _ m hm; exact absurd hm (List.not_mem_nil m)
  | cons memo rest ih =>
    intro fs ta errs recs fs' res h m hm
    cases hg : jGetD memo "name" .null with
    | error e =>
      rw [memo_loop, hg] at h
      exact Except.noConfusion (congrArg Prod.snd h)
    | ok v =>
      have hobj : memo.isObj = true := by
        rcases jGetD_ok_obj hg with ⟨l, rfl⟩
        rfl
      rcases List.mem_cons.mp hm with rfl | hmem
      · exact hobj
      · rcases hp : process_memo env fs ta memo with ⟨fs1, ta1, out⟩
        rw [memo_loop, hg, hp] at h
        cases out with
        | skipped => exact ih fs1 ta1 errs recs fs' res h m hmem
        | appended rec => exact ih fs1 ta1 errs (recs ++ [rec]) fs' res h m hmem
        | errored msg => exact ih fs1 ta1 (errs ++ [msg]) recs fs' res h m hmem

theorem run_inversion {env : Env} {fs0 : FS} {ec : Nat} {r : ExportReport} {fs1 : FS}
    (h : export_memos_run env fs0 = ⟨ec, some r, fs1⟩) :
    ∃ u listed ta, get_current_user env = .ok u ∧ list_memos env.pages = .ok listed ∧
      memo_loop env listed fs0 0 [] [] = (fs1, .ok (ta, r.summary.export_errors, r.memos)) ∧
      r.summary.total_memos = listed.length ∧ r.summary.total_attachments = ta ∧
      r.user = some u ∧ ec = 0 := by
  cases hu : get_current_user env with
  | error e =>
    simp only [export_memos_run, hu] at h
    exact Option.noConfusion (congrArg RunResult.report h)
  | ok u =>
    cases hl : list_memos env.pages with
    | error e =>
      simp only [export_memos_run, hu, hl] at h
      exact Option.noConfusion (congrArg RunResult.report h)
    | ok listed =>
      rcases hm : memo_loop env listed fs0 0 [] [] with ⟨fsx, resx⟩
      cases resx with
      | error e =>
        simp only [export_memos_run, hu, hl, hm] at h
        exact Option.noConfusion (congrArg RunResult.report h)
      | ok trip =>
        rcases trip with ⟨ta, errs, recs⟩
        simp only [export_memos_run, hu, hl, hm] at h
        have hec : ec = 0 := (congrArg RunResult.exitCode h).symm
        have hfs : fs1 = fsx := (congrArg RunResult.fs h).symm
        have hrep : some (⟨some u, recs, ⟨listed.length, ta, errs⟩⟩ : ExportReport) = some r :=
          congrArg RunResult.report h
        have hr : r = ⟨some u, recs, ⟨listed.length, ta, errs⟩⟩ := (Option.some_inj.mp hrep).symm
        subst hr hfs
        exact ⟨u, listed, ta, rfl, rfl, hm, rfl, rfl, rfl, hec⟩

theorem pathTail_append (n : String) : pathTail ("attachments/" ++ n) = n := by
  unfold pathTail
  rw [string_data_append]
  have : ("attachments/" : String).data.length = 12 := rfl
  rw [show (12 : Nat) = ("attachments/" : String).data.length from rfl, List.drop_left]

theorem mkAttachmentRef_fields {att : JVal} {path : String} {ref : AttachmentRef}
    (h : mkAttachmentRef att path = .ok ref) :
    ref.file_path = path ∧ jGetD att "size" (.num 0) = .ok ref.size := by
  cases att with
  | obj l =>
    rw [mkAttachmentRef_obj] at h
    cases h
    exact ⟨rfl, rfl⟩
  | null => exact Except.noConfusion h
  | bool b => exact Except.noConfusion h
  | num n => exact Except.noConfusion h
  | str s => exact Except.noConfusion h
  | arr l => exact Except.noConfusion h

theorem run_report_invariant {env : Env} {fs0 : FS} {ec : Nat} {r : ExportReport} {fs1 : FS}
    (hrun : export_memos_run env fs0 = ⟨ec, some r, fs1⟩) :
    invP fs1 (pathsOf r.memos) ∧
    ∀ rec ∈ r.memos, ∀ ref ∈ rec.attachments, refGood env fs1 ref := by
  rcases run_inversion hrun with ⟨u, listed, ta, hu, hl, hm, htm, hta, hus, hec⟩
  have hobj := memo_loop_ok_obj env listed fs0 0 [] [] fs1 _ hm
  have hsim := memo_loop_eq_sim env listed fs0 0 [] [] hobj
  rw [hm] at hsim
  have hfs1 : fs1 = (loop_sim env listed fs0 0).1 := congrArg Prod.fst hsim
  have hsnd := congrArg Prod.snd hsim
  have htrip : (ta, r.summary.export_errors, r.memos) =
      ((loop_sim env listed fs0 0).2.1,
       [] ++ outErrs (loop_sim env listed fs0 0).2.2,
       [] ++ outRecs (loop_sim env listed fs0 0).2.2) := by
    injection hsnd
  have hrecs : r.memos = outRecs (loop_sim env listed fs0 0).2.2 := by
    have := congrArg (fun t => t.2.2) htrip
    simpa using this
  have hinv0 : invP fs0 ([] : List String) := ⟨List.nodup_nil, fun p hp => absurd hp (List.not_mem_nil p)⟩
  rcases loop_sim_inv env listed fs0 0 [] hinv0 with ⟨_, hinv, hgood⟩
  rw [← hfs1] at hinv hgood
  rw [hrecs]
  constructor
  · simpa using hinv
  · exact hgood

/-- Claim C3: every attachment recorded in the written report names a file
that still exists in the attachments directory, whose byte count matches the
`size` recorded in the `AttachmentRef`, provided the server-reported size
metadata was accurate. -/
theorem c3_attachment_files (env : Env) (fs0 : FS) (ec : Nat) (r : ExportReport) (fs1 : FS)
    (hrun : export_memos_run env fs0 = ⟨ec, some r, fs1⟩)
    (hacc : sizeAccurate env) :
    ∀ rec ∈ r.memos, ∀ ref ∈ rec.attachments,
      ref.file_path = "attachments/" ++ pathTail ref.file_path ∧
      (fsLookup fs1 (pathTail ref.file_path)).map (fun c => JVal.num (c.length : Int)) =
        some ref.size := by
  intro rec hrec ref href
  rcases (run_report_invariant hrun).2 rec hrec ref href with
    ⟨mn, att, an, fn, c, n, hmem, h1, h2, h4, h5, h6, h7⟩
  have hsz := hacc mn att an fn c hmem h1 h2 h4
  rcases mkAttachmentRef_fields h5 with ⟨_, hsz2⟩
  have hsize : ref.size = .num c.length := by
    rw [hsz] at hsz2
    injection hsz2 with h
    exact h.symm
  have htail : pathTail ref.file_path = n := by
    rw [h6, pathTail_append]
  refine ⟨?_, ?_⟩
  · rw [htail, h6]
  · rw [htail, h7, hsize]
    rfl

/-- Claim C6: recorded attachment paths are pairwise distinct in every
finished run, and the concrete two-`photo.png` run produces
`attachments/photo.png` and `attachments/photo_1.png`, both present with
their own downloaded bytes (neither overwritten). -/
theorem c6_filename_collision :
    (∀ (env : Env) (fs0 : FS) (ec : Nat) (r : ExportReport) (fs1 : FS),
      export_memos_run env fs0 = ⟨ec, some r, fs1⟩ → (pathsOf r.memos).Nodup) ∧
    (export_memos_run envC6 []).fs = [("photo.png", [7]), ("photo_1.png", [8, 9])] ∧
    ((export_memos_run envC6 []).report.map fun r => pathsOf r.memos) =
      some ["attachments/photo.png", "attachments/photo_1.png"] :=
  ⟨fun _ _ _ _ _ hrun => (run_report_invariant hrun).1.1, rfl, rfl⟩

/-- Claim C5: when every page before the last carries a nonempty
continuation token and the last page's token is empty, `list_memos` returns
exactly the concatenation of all pages' memo lists in order (no duplicates,
no omissions beyond what the server sent), terminating at the empty
token. -/
theorem c5_pagination (init : List PageSpec) (last : PageSpec)
    (hinit : ∀ p ∈ init, p.tok ≠ "") (hlast : last.tok = "") :
    list_memos ((init ++ [last]).map (fun p => .ok (mkPage p))) =
      .ok ((init ++ [last]).flatMap (fun p => p.memos)) := by
  unfold list_memos
  suffices h : ∀ (acc : List JVal),
      list_memos_go ((init ++ [last]).map (fun p => .ok (mkPage p))) acc =
        .ok (acc ++ (init ++ [last]).flatMap (fun p => p.memos)) by
    simpa using h []
  induction init with
  | nil =>
    intro acc
    rcases last with ⟨lm, lt⟩
    subst hlast
    simp [list_memos_go, mkPage, jGetD, jIter, List.lookup, truthy]
  | cons p ps ih =>
    intro acc
    have htok : truthy (.str p.tok) = true := by
      simp [truthy]
      exact hinit p (List.mem_cons_self _ _)
    have hred : list_memos_go (((p :: ps) ++ [last]).map (fun q => .ok (mkPage q))) acc =
        list_memos_go ((ps ++ [last]).map (fun q => .ok (mkPage q))) (acc ++ p.memos) := by
      simp [list_memos_go, mkPage, jGetD, jIter, List.lookup, htok]
    rw [hred, ih (fun q hq => hinit q (List.mem_cons_of_mem _ hq))]
    simp [List.flatMap_cons, List.append_assoc]

/-- Claim C8: a failing session-lookup call is fatal — the run exits with
status 1, no report file is written, and the attachments directory is left
untouched. -/
theorem c8_fatal_session_lookup (env : Env) (fs0 : FS) (e : Exn)
    (h : env.userResp = .error e) :
    export_memos_run env fs0 = ⟨1, none, fs0⟩ := by
  have hu : get_current_user env = .error e := by
    unfold get_current_user
    rw [h]
    rfl
  simp only [export_memos_run, hu]

/-- Claim C9: `download_attachment` with a missing or falsy resource name or
filename returns `None` without touching the network or the filesystem, and
a request is issued only when both fields are truthy. -/
theorem c9_download_requires_fields (env : Env) (fs : FS) (att : JVal) (nv fv : JVal)
    (hn : jGetD att "name" (.str "") = .ok nv)
    (hf : jGetD att "filename" (.str "") = .ok fv) :
    ((truthy nv = false ∨ truthy fv = false) →
      download_attachment env fs att = (none, fs, false)) ∧
    ((download_attachment env fs att).2.2 = true → truthy nv = true ∧ truthy fv = true) := by
  constructor
  · intro hfalsy
    have hcond : ¬ truthy nv = true ∨ ¬ truthy fv = true := by
      rcases hfalsy with h | h
      · exact Or.inl (by simp [h])
      · exact Or.inr (by simp [h])
    simp only [download_attachment, hn, hf, if_pos hcond]
  · intro hreq
    by_cases hcond : ¬ truthy nv = true ∨ ¬ truthy fv = true
    · have hz : download_attachment env fs att = (none, fs, false) := by
        simp only [download_attachment, hn, hf, if_pos hcond]
      rw [hz] at hreq
      simp at hreq
    · push_neg at hcond
      exact hcond

/-- Claim C4: when every listed summary is a JSON object, the per-memo loop
never aborts: it returns `.ok`, the error string of each memo whose
processing raised is appended to `export_errors` in order, such memos are
not appended to `memos` (only `appended` outcomes are), and every listed
memo is processed (one outcome per memo). -/
theorem c4_per_memo_exceptions (env : Env) (memos : List JVal) (fs : FS) (ta : Nat)
    (errs : List String) (recs : List MemoRecord)
    (hobj : ∀ m ∈ memos, m.isObj = true) :
    memo_loop env memos fs ta errs recs =
      ((loop_sim env memos fs ta).1,
        .ok ((loop_sim env memos fs ta).2.1,
             errs ++ outErrs (loop_sim env memos fs ta).2.2,
             recs ++ outRecs (loop_sim env memos fs ta).2.2)) ∧
    (loop_sim env memos fs ta).2.2.length = memos.length :=
  ⟨memo_loop_eq_sim env memos fs ta errs recs hobj, loop_sim_length env memos fs ta⟩

/-- Claim C7: for a memo summary object with a truthy name whose detail
fetch fails, `get_memo_details` returns an empty dict instead of raising,
the driver falls back to the summary object, the memo is appended (its
record is the `memo_export` built from the summary object), and the loop
records no error for it, continuing with the remaining memos. -/
theorem c7_detail_fallback (env : Env) (fields : List (String × JVal)) (mname : JVal)
    (hname : jGetD (.obj fields) "name" (.str "") = .ok mname)
    (htruthy : truthy mname = true)
    (e : Exn) (hfail : env.detail mname = .error e)
    (atts : List JVal) (hatts : jIter (get_memo_attachments env mname) = .ok atts)
    (fs : FS) (ta : Nat) :
    get_memo_details env mname = .obj [] ∧
    (process_memo env fs ta (.obj fields)).2.2.isAppended = true ∧
    mkMemoExport (.obj fields)
        ((process_memo env fs ta (.obj fields)).2.2.getRec defaultRec).attachments =
      .ok ((process_memo env fs ta (.obj fields)).2.2.getRec defaultRec) ∧
    (∀ (rest : List JVal) (errs : List String) (recs : List MemoRecord),
      memo_loop env ((.obj fields) :: rest) fs ta errs recs =
        memo_loop env rest (process_memo env fs ta (.obj fields)).1
          (process_memo env fs ta (.obj fields)).2.1 errs
          (recs ++ [(process_memo env fs ta (.obj fields)).2.2.getRec defaultRec])) := by
  have hdet : get_memo_details env mname = .obj [] := by
    simp [get_memo_details, hfail]
  rcases attach_loop_ok env atts fs ta [] with ⟨fs', ta', refs, hal⟩
  obtain ⟨rec, hrec⟩ : ∃ rec, mkMemoExport (.obj fields) refs = .ok rec :=
    ⟨_, mkMemoExport_obj fields refs⟩
  have hred : process_memo env fs ta (.obj fields) = (fs', ta', .appended rec) := by
    simp only [process_memo, hname, hdet,
      show truthy (JVal.obj []) = false from rfl, Bool.false_eq_true, if_false, hatts, hal, hrec]
    rw [if_neg (by simp [htruthy])]
  refine ⟨hdet, ?_, ?_, ?_⟩
  · rw [hred]; rfl
  · rw [hred]
    simp only [MemoOutcome.getRec]
    rw [mkMemoExport_attachments hrec]
    exact hrec
  · intro rest errs recs
    rw [hred]
    simp only [memo_loop, jGetD, hred, MemoOutcome.getRec]

theorem jGetD_obj_name (fields : List (String × JVal)) :
    jGetD (.obj fields) "name" (.str "") = .ok (summaryName (.obj fields)) := rfl

theorem nameMissingOrEmpty_eq_falsy {m : JVal} (hobj : m.isObj = true)
    (hwt : nameWellTyped m = true) :
    nameMissingOrEmpty m = !truthy (summaryName m) := by
  cases m with
  | obj fields =>
    cases hl : fields.lookup "name" with
    | none => simp [nameMissingOrEmpty, summaryName, hl, truthy]
    | some v =>
      cases v with
      | str s => simp [nameMissingOrEmpty, summaryName, hl, truthy, bne]
      | null => simp [nameWellTyped, hl] at hwt
      | bool b => simp [nameWellTyped, hl] at hwt
      | num n => simp [nameWellTyped, hl] at hwt
      | arr l => simp [nameWellTyped, hl] at hwt
      | obj l => simp [nameWellTyped, hl] at hwt
  | null => simp [JVal.isObj] at hobj
  | bool b => simp [JVal.isObj] at hobj
  | num n => simp [JVal.isObj] at hobj
  | str s => simp [JVal.isObj] at hobj
  | arr l => simp [JVal.isObj] at hobj

theorem process_memo_skipped_of (env : Env) (fs : FS) (ta : Nat) (fields : List (String × JVal))
    (hfalsy : truthy (summaryName (.obj fields)) = false) :
    process_memo env fs ta (.obj fields) = (fs, ta, .skipped) := by
  simp only [process_memo, jGetD_obj_name]
  rw [if_pos (by simp [hfalsy])]

theorem process_memo_not_skipped (env : Env) (fs : FS) (ta : Nat) (fields : List (String × JVal))
    (htruthy : truthy (summaryName (.obj fields)) = true) :
    (process_memo env fs ta (.obj fields)).2.2 ≠ .skipped := by
  simp only [process_memo, jGetD_obj_name]
  rw [if_neg (by simp [htruthy])]
  cases hit : jIter (get_memo_attachments env (summaryName (.obj fields))) with
  | error e => simp
  | ok atts =>
    rcases attach_loop_ok env atts fs ta [] with ⟨fs', ta', refs, hal⟩
    simp only [hal]
    cases hmk : mkMemoExport (if truthy (get_memo_details env (summaryName (.obj fields))) then
        get_memo_details env (summaryName (.obj fields)) else .obj fields) refs with
    | error e => simp [hmk]
    | ok rec => simp [hmk]

theorem outs_length_split (outs : List MemoOutcome) :
    outs.length = (outErrs outs).length + (outRecs outs).length + outSkips outs := by
  induction outs with
  | nil => rfl
  | cons o rest ih =>
    cases o with
    | skipped =>
      simp only [outErrs, outRecs, outSkips, List.filterMap_cons] at ih ⊢
      simp only [List.length_cons]
      omega
    | appended rec =>
      simp only [outErrs, outRecs, outSkips, List.filterMap_cons] at ih ⊢
      simp only [List.length_cons]
      omega
    | errored msg =>
      simp only [outErrs, outRecs, outSkips, List.filterMap_cons] at ih ⊢
      simp only [List.length_cons]
      omega

theorem loop_sim_skips (env : Env) : ∀ (memos : List JVal) (fs : FS) (ta : Nat),
    (∀ m ∈ memos, m.isObj = true) →
    outSkips (loop_sim env memos fs ta).2.2 =
      memos.countP (fun m => !truthy (summaryName m)) := by
  intro memos
  induction memos with
  | nil => intro fs ta _; rfl
  | cons m rest ih =>
    intro fs ta hobj
    have hm : m.isObj = true := hobj m (List.mem_cons_self _ _)
    have hrest : ∀ x ∈ rest, x.isObj = true := fun x hx => hobj x (List.mem_cons_of_mem _ hx)
    rcases hp : process_memo env fs ta m with ⟨fs1, ta1, out⟩
    rcases hs : loop_sim env rest fs1 ta1 with ⟨fs2, ta2, outs⟩
    have hred : loop_sim env (m :: rest) fs ta = (fs2, ta2, out :: outs) := by
      simp [loop_sim, hp, hs]
    rw [hred]
    have ihr := ih fs1 ta1 hrest
    rw [hs] at ihr
    obtain ⟨fields, rfl⟩ : ∃ l, m = JVal.obj l := by
      cases m with
      | obj l => exact ⟨l, rfl⟩
      | null => simp [JVal.isObj] at hm
      | bool b => simp [JVal.isObj] at hm
      | num n => simp [JVal.isObj] at hm
      | str s => simp [JVal.isObj] at hm
      | arr l => simp [JVal.isObj] at hm
    rw [List.countP_cons]
    cases hname : truthy (summaryName (.obj fields)) with
    | false =>
      have hskip := process_memo_skipped_of env fs ta fields hname
      rw [hp] at hskip
      have : out = .skipped := by
        have := congrArg (fun t => t.2.2) hskip
        simpa using this
      subst this
      simp only [outSkips, List.filterMap_cons] at ihr ⊢
      simp only [List.length_cons, ihr, hname]
      rfl
    | true =>
      have hns := process_memo_not_skipped env fs ta fields hname
      rw [hp] at hns
      simp only at hns
      have hout : outSkips (out :: outs) = outSkips outs := by
        cases out with
        | skipped => exact absurd rfl hns
        | appended rec => simp [outSkips, List.filterMap_cons]
        | errored msg => simp [outSkips, List.filterMap_cons]
      rw [hout, ihr]
      simp

theorem countP_congr_mem {α : Type} (p q : α → Bool) :
    ∀ (l : List α), (∀ a ∈ l, p a = q a) → l.countP p = l.countP q := by
  intro l
  induction l with
  | nil => intro _; rfl
  | cons a t ih =>
    intro h
    rw [List.countP_cons, List.countP_cons, h a (List.mem_cons_self _ _),
      ih (fun x hx => h x (List.mem_cons_of_mem _ hx))]

theorem invP_nil (fs : FS) : invP fs [] :=
  ⟨List.nodup_nil, fun p hp => absurd hp (List.not_mem_nil p)⟩

/-- Claim C10: a summary object with a falsy name is dropped with no state
change at all (same directory, same counter, `skipped`, independent of the
environment), and in every finished run `total_memos` splits into the
appended memos, the recorded errors and the summaries whose name was
missing or empty. -/
theorem c10_nameless_counted (env : Env) (fs0 : FS) (listed : List JVal) (ec : Nat)
    (r : ExportReport) (fs1 : FS)
    (hl : list_memos env.pages = .ok listed)
    (hwt : ∀ m ∈ listed, nameWellTyped m = true)
    (hrun : export_memos_run env fs0 = ⟨ec, some r, fs1⟩) :
    (∀ (env' : Env) (fs : FS) (ta : Nat) (fields : List (String × JVal)),
      truthy (summaryName (.obj fields)) = false →
      process_memo env' fs ta (.obj fields) = (fs, ta, .skipped)) ∧
    r.summary.total_memos =
      r.memos.length + r.summary.export_errors.length + listed.countP nameMissingOrEmpty := by
  refine ⟨fun env' fs ta fields h => process_memo_skipped_of env' fs ta fields h, ?_⟩
  rcases run_inversion hrun with ⟨u, listed', ta, hu, hl', hm, htm, hta, hus, hec⟩
  have hls : listed = listed' := by
    rw [hl] at hl'
    injection hl' with h
  subst hls
  have hobj := memo_loop_ok_obj env listed fs0 0 [] [] fs1 _ hm
  have hsim := memo_loop_eq_sim env listed fs0 0 [] [] hobj
  rw [hm] at hsim
  have htrip : (ta, r.summary.export_errors, r.memos) =
      ((loop_sim env listed fs0 0).2.1,
       [] ++ outErrs (loop_sim env listed fs0 0).2.2,
       [] ++ outRecs (loop_sim env listed fs0 0).2.2) := by
    injection congrArg Prod.snd hsim
  have herrs : r.summary.export_errors = outErrs (loop_sim env listed fs0 0).2.2 := by
    have := congrArg (fun t => t.2.1) htrip
    simpa using this
  have hrecs : r.memos = outRecs (loop_sim env listed fs0 0).2.2 := by
    have := congrArg (fun t => t.2.2) htrip
    simpa using this
  have hlen := loop_sim_length env listed fs0 0
  have hsplit := outs_length_split (loop_sim env listed fs0 0).2.2
  have hskips := loop_sim_skips env listed fs0 0 hobj
  have hcount : listed.countP (fun m => !truthy (summaryName m)) =
      listed.countP nameMissingOrEmpty :=
    countP_congr_mem _ _ listed
      (fun m hm' => (nameMissingOrEmpty_eq_falsy (hobj m hm') (hwt m hm')).symm)
  rw [htm, herrs, hrecs, ← hcount, ← hskips]
  omega

/-- Amended claim C1: `summary.total_memos` always equals the number of
listed summaries; it equals `len(memos)` in runs that additionally recorded
no per-memo error and listed no summary with a falsy name. -/
theorem c1_amended_total_memos (env : Env) (fs0 : FS) (listed : List JVal) (ec : Nat)
    (r : ExportReport) (fs1 : FS)
    (hl : list_memos env.pages = .ok listed)
    (hrun : export_memos_run env fs0 = ⟨ec, some r, fs1⟩) :
    r.summary.total_memos = listed.length ∧
    (r.summary.export_errors = [] → (∀ m ∈ listed, truthy (summaryName m) = true) →
      r.summary.total_memos = r.memos.length) := by
  rcases run_inversion hrun with ⟨u, listed', ta, hu, hl', hm, htm, hta, hus, hec⟩
  have hls : listed = listed' := by
    rw [hl] at hl'
    injection hl' with h
  subst hls
  refine ⟨htm, fun herr hname => ?_⟩
  have hobj := memo_loop_ok_obj env listed fs0 0 [] [] fs1 _ hm
  have hsim := memo_loop_eq_sim env listed fs0 0 [] [] hobj
  rw [hm] at hsim
  have htrip : (ta, r.summary.export_errors, r.memos) =
      ((loop_sim env listed fs0 0).2.1,
       [] ++ outErrs (loop_sim env listed fs0 0).2.2,
       [] ++ outRecs (loop_sim env listed fs0 0).2.2) := by
    injection congrArg Prod.snd hsim
  have herrs : r.summary.export_errors = outErrs (loop_sim env listed fs0 0).2.2 := by
    have := congrArg (fun t => t.2.1) htrip
    simpa using this
  have hrecs : r.memos = outRecs (loop_sim env listed fs0 0).2.2 := by
    have := congrArg (fun t => t.2.2) htrip
    simpa using this
  have hlen := loop_sim_length env listed fs0 0
  have hsplit := outs_length_split (loop_sim env listed fs0 0).2.2
  have hskips := loop_sim_skips env listed fs0 0 hobj
  have hzero : listed.countP (fun m => !truthy (summaryName m)) = 0 := by
    rw [List.countP_eq_zero]
    intro m hm'
    simp [hname m hm']
  have herrlen : (outErrs (loop_sim env listed fs0 0).2.2).length = 0 := by
    rw [← herrs, herr]
    rfl
  rw [htm, hrecs]
  rw [hzero] at hskips
  omega

theorem loop_sim_counter (env : Env) : ∀ (memos : List JVal) (fs : FS) (ta : Nat),
    outErrs (loop_sim env memos fs ta).2.2 = [] →
    (loop_sim env memos fs ta).2.1 =
      ta + ((outRecs (loop_sim env memos fs ta).2.2).flatMap
        (fun rec => rec.attachments)).length := by
  intro memos
  induction memos with
  | nil => intro fs ta _; simp [loop_sim, outRecs]
  | cons m rest ih =>
    intro fs ta herr
    rcases hp : process_memo env fs ta m with ⟨fs1, ta1, out⟩
    rcases hs : loop_sim env rest fs1 ta1 with ⟨fs2, ta2, outs⟩
    have hred : loop_sim env (m :: rest) fs ta = (fs2, ta2, out :: outs) := by
      simp [loop_sim, hp, hs]
    rw [hred] at herr ⊢
    have ihr := ih fs1 ta1
    rw [hs] at ihr
    rcases process_memo_spec env fs ta m [] (invP_nil fs) with ⟨_, _, pm3, pm4⟩
    rw [hp] at pm3 pm4
    cases out with
    | errored msg => simp [outErrs, List.filterMap_cons] at herr
    | skipped =>
      have herr' : outErrs outs = [] := by simpa [outErrs, List.filterMap_cons] using herr
      have hta1 : ta1 = ta := (pm4 rfl).2
      subst hta1
      rw [outRecs_cons_skipped]
      exact ihr herr'
    | appended rec =>
      have herr' : outErrs outs = [] := by simpa [outErrs, List.filterMap_cons] using herr
      have hta1 : ta1 = ta + rec.attachments.length := pm3 rec rfl |>.2.2
      rw [outRecs_cons_appended]
      have hfin := ihr herr'
      simp only [List.flatMap_cons, List.length_append]
      simp only at hfin ⊢
      omega

/-- Amended claim C2: `summary.total_attachments` counts successful
downloads; in every finished run that recorded no per-memo error it equals
the number of `AttachmentRef` entries summed across the `memos` array. -/
theorem c2_amended_total_attachments (env : Env) (fs0 : FS) (ec : Nat) (r : ExportReport)
    (fs1 : FS)
    (hrun : export_memos_run env fs0 = ⟨ec, some r, fs1⟩)
    (herr : r.summary.export_errors = []) :
    r.summary.total_attachments = (r.memos.flatMap (fun rec => rec.attachments)).length := by
  rcases run_inversion hrun with ⟨u, listed, ta, hu, hl, hm, htm, hta, hus, hec⟩
  have hobj := memo_loop_ok_obj env listed fs0 0 [] [] fs1 _ hm
  have hsim := memo_loop_eq_sim env listed fs0 0 [] [] hobj
  rw [hm] at hsim
  have htrip : (ta, r.summary.export_errors, r.memos) =
      ((loop_sim env listed fs0 0).2.1,
       [] ++ outErrs (loop_sim env listed fs0 0).2.2,
       [] ++ outRecs (loop_sim env listed fs0 0).2.2) := by
    injection congrArg Prod.snd hsim
  have herrs : r.summary.export_errors = outErrs (loop_sim env listed fs0 0).2.2 := by
    have := congrArg (fun t => t.2.1) htrip
    simpa using this
  have hrecs : r.memos = outRecs (loop_sim env listed fs0 0).2.2 := by
    have := congrArg (fun t => t.2.2) htrip
    simpa using this
  have hta2 : ta = (loop_sim env listed fs0 0).2.1 := by
    have := congrArg (fun t => t.1) htrip
    simpa using this
  have hcnt := loop_sim_counter env listed fs0 0 (by rw [← herrs, herr])
  rw [hta, hta2, hrecs, hcnt]
  omega

theorem c1_amended_total_memos_witness :
    rOk.summary.total_memos = 1 ∧ rOk.summary.total_memos = rOk.memos.length := by
  have h := c1_amended_total_memos envOk [] [memoOk] 0 rOk (export_memos_run envOk []).fs rfl rfl
  refine ⟨h.1, h.2 rfl ?_⟩
  intro m hm
  rcases List.mem_singleton.mp hm with rfl
  rfl

theorem sizeAccurate_envC3 : sizeAccurate envC3 := by
  intro mn att an fn c hmem h1 h2 h4
  have hmetas : envMetas envC3 mn = [attC3] := rfl
  rw [hmetas] at hmem
  rcases List.mem_singleton.mp hmem with rfl
  have han : an = .str "attachments/7" := by
    have hx : jGetD attC3 "name" (.str "") = .ok (.str "attachments/7") := rfl
    rw [hx] at h1
    injection h1 with h
    exact h.symm
  have hfn : fn = .str "a.bin" := by
    have hx : jGetD attC3 "filename" (.str "") = .ok (.str "a.bin") := rfl
    rw [hx] at h2
    injection h2 with h
    exact h.symm
  subst han hfn
  have hc : c = [9, 9] := by
    have hx : envC3.download (.str "attachments/7") (.str "a.bin") = .ok [9, 9] := rfl
    rw [hx] at h4
    injection h4 with h
    exact h.symm
  subst hc
  rfl

theorem c3_attachment_files_witness :
    refC3.file_path = "attachments/" ++ pathTail refC3.file_path ∧
    (fsLookup (export_memos_run envC3 []).fs (pathTail refC3.file_path)).map
        (fun c => JVal.num (c.length : Int)) = some refC3.size := by
  have h := c3_attachment_files envC3 [] 0 rC3 (export_memos_run envC3 []).fs rfl
    sizeAccurate_envC3
  exact h recC3 (List.mem_cons_self _ _) refC3 (List.mem_cons_self _ _)

theorem c2_amended_total_attachments_witness :
    rC3.summary.total_attachments = 1 ∧
    (rC3.memos.flatMap (fun rec => rec.attachments)).length = 1 := by
  have h := c2_amended_total_attachments envC3 [] 0 rC3 (export_memos_run envC3 []).fs rfl rfl
  exact ⟨h, rfl⟩

theorem c4_per_memo_exceptions_witness :
    memo_loop envC4 [memoOk] [] 0 [] [] =
      ([], .ok (0, ["Memo memos/1: AttributeError"], [])) := by
  have h := (c4_per_memo_exceptions envC4 [memoOk] [] 0 [] []
    (by intro m hm; rcases List.mem_singleton.mp hm with rfl; rfl)).1
  exact h.trans rfl

theorem c5_pagination_witness :
    list_memos ([pageA, pageB].map (fun p => .ok (mkPage p))) =
      .ok [.str "m1", .str "m2", .str "m3"] := by
  have h := c5_pagination [pageA] pageB
    (by intro p hp; rcases List.mem_singleton.mp hp with rfl; decide) rfl
  exact h

theorem c6_filename_collision_witness : (pathsOf rC6.memos).Nodup :=
  c6_filename_collision.1 envC6 [] 0 rC6 (export_memos_run envC6 []).fs rfl

theorem c7_detail_fallback_witness :
    get_memo_details envOk (.str "memos/1") = .obj [] ∧
    (process_memo envOk [] 0 memoOk).2.2.isAppended = true ∧
    memo_loop envOk [memoOk] [] 0 [] [] =
      memo_loop envOk [] (process_memo envOk [] 0 memoOk).1
        (process_memo envOk [] 0 memoOk).2.1 []
        ([] ++ [(process_memo envOk [] 0 memoOk).2.2.getRec defaultRec]) := by
  have h := c7_detail_fallback envOk [("name", .str "memos/1")] (.str "memos/1") rfl rfl
    (.http "HTTP 404") rfl [] rfl [] 0
  exact ⟨h.1, h.2.1, h.2.2.2 [] [] []⟩

theorem c8_fatal_session_lookup_witness :
    export_memos_run envC8 [] = ⟨1, none, []⟩ :=
  c8_fatal_session_lookup envC8 [] (.http "HTTP 401") rfl

theorem c9_download_requires_fields_witness :
    download_attachment envC9 [] attC9 = (none, [], false) :=
  (c9_download_requires_fields envC9 [] attC9 (.str "attachments/1") (.str "") rfl rfl).1
    (Or.inr rfl)

theorem c10_nameless_counted_witness :
    rC10.summary.total_memos = 2 ∧ rC10.memos.length = 1 ∧
    rC10.summary.export_errors.length = 0 ∧
    ([memoOk, JVal.obj []].countP nameMissingOrEmpty) = 1 ∧
    process_memo envC10 [] 0 (.obj []) = ([], 0, .skipped) := by
  have h := c10_nameless_counted envC10 [] [memoOk, .obj []] 0 rC10
    (export_memos_run envC10 []).fs rfl
    (by
      intro m hm
      rcases List.mem_cons.mp hm with rfl | hm2
      · rfl
      · rcases List.mem_singleton.mp hm2 with rfl
        rfl) rfl
  exact ⟨h.2, rfl, rfl, rfl, h.1 envC10 [] 0 [] rfl⟩
